import Mathlib

set_option maxHeartbeats 1000000

/-!
Verification of the subtitle-segment timing engine of the
`video-altyazi-ekleme-araci` repository.  The definitions below are shallow
embeddings of the Python sources (`src/app.py`,
`src/grunge_subtitle_generator.py`, `src/multilingual_processor.py`).

Modelling conventions:
* Python machine integers are `ℤ`/`ℕ`; Python `int()` truncation, `divmod`
  (floor division) and `%` are modelled explicitly (`pyint`, `Int.fdiv`,
  `Int.fmod`, `pymod1`).
* Python floats are modelled as exact rationals.  Where the behaviour of a
  claim depends on IEEE-754 double rounding, that rounding
  (round-to-nearest-even at 53 significant bits, `dround` below) is modelled
  explicitly; float operations that are exact on the values involved
  (e.g. `t % 1` on a non-huge double) are modelled exactly.
* Python strings are `String` (a wrapper of `List Char`); helper functions
  mirror the string methods used by the source (`strip`, `split`, `join`,
  `zfill`, `upper`, `replace` with one-character pattern).
* The library's `Rat.add`/`Rat.mul`/`Rat.inv` are irreducible, so proofs by
  evaluation cannot unfold them; the executable equivalents `qadd`, `qsub`,
  `qmul`, `qinv`, `qdiv`, `qneg` below reduce, and are proved equal to the
  field operations, so theorems are still stated with ordinary arithmetic.
-/

/-- Executable rational addition (equals `a + b`, see `qadd_eq`). -/
def qadd (a b : ℚ) : ℚ := mkRat (a.num * b.den + b.num * a.den) (a.den * b.den)

/-- Executable rational negation (equals `-a`, see `qneg_eq`). -/
def qneg (a : ℚ) : ℚ := mkRat (-a.num) a.den

/-- Executable rational subtraction (equals `a - b`, see `qsub_eq`). -/
def qsub (a b : ℚ) : ℚ := qadd a (qneg b)

/-- Executable rational multiplication (equals `a * b`, see `qmul_eq`). -/
def qmul (a b : ℚ) : ℚ := mkRat (a.num * b.num) (a.den * b.den)

/-- Executable rational inverse (equals `a⁻¹`, see `qinv_eq`). -/
def qinv (a : ℚ) : ℚ := mkRat (if 0 ≤ a.num then (a.den : ℤ) else -(a.den : ℤ)) a.num.natAbs

/-- Executable rational division (equals `a / b`, see `qdiv_eq`). -/
def qdiv (a b : ℚ) : ℚ := qmul a (qinv b)

/-- Computable floor of a rational (the `⌊⌋` notation for `ℚ` elaborates
through a `FloorRing` instance that proofs by evaluation cannot reduce). -/
def pyfloor (q : ℚ) : ℤ := Rat.floor q

/-- Python `int()` applied to a real (float) value: truncation toward zero. -/
def pyint (q : ℚ) : ℤ := if 0 ≤ q then pyfloor q else -pyfloor (qneg q)

/-- Python `round()` on a real value: round half to even.  This is also the
rounding `datetime.timedelta` applies when converting a float seconds value
to whole microseconds. -/
def pyround (q : ℚ) : ℤ :=
  if qsub q ((pyfloor q : ℤ) : ℚ) < mkRat 1 2 then pyfloor q
  else if mkRat 1 2 < qsub q ((pyfloor q : ℤ) : ℚ) then pyfloor q + 1
  else if pyfloor q % 2 = 0 then pyfloor q else pyfloor q + 1

/-- Floor of the base-2 logarithm of a natural number, by fuel recursion
(the fuel argument only has to dominate the recursion depth, which `n`
itself always does). -/
def msbAux : ℕ → ℕ → ℕ
  | 0, _ => 0
  | fuel + 1, n => if n < 2 then 0 else msbAux fuel (n / 2) + 1

/-- Floor of the base-2 logarithm of `n` (0 for `n = 0`). -/
def msb (n : ℕ) : ℕ := msbAux n n

/-- Multiply a rational by `2 ^ k` for a (possibly negative) integer `k`. -/
def shl2 (q : ℚ) (k : ℤ) : ℚ :=
  if 0 ≤ k then qmul q ((2 ^ k.toNat : ℕ) : ℚ) else qdiv q ((2 ^ (-k).toNat : ℕ) : ℚ)

/-- The IEEE-754 binary64 value nearest to the positive rational `a`
(round to nearest, ties to even), for magnitudes in the normal range:
the significand is rounded to 53 bits.  `e2` is the binade exponent
`⌊log₂ a⌋`, computed from `msb` and corrected by at most one. -/
def droundPos (a : ℚ) : ℚ :=
  let e0 : ℤ :=
    if 1 ≤ a then (msb (Int.toNat (pyfloor a)) : ℤ) else -((msb (Int.toNat (pyfloor (qinv a))) : ℤ) + 1)
  let e1 : ℤ := if shl2 1 (e0 + 1) ≤ a then e0 + 1 else e0
  let e2 : ℤ := if a < shl2 1 e1 then e1 - 1 else e1
  shl2 ((pyround (shl2 a (52 - e2)) : ℤ) : ℚ) (e2 - 52)

/-- The IEEE-754 binary64 value nearest to the rational `q`. -/
def dround (q : ℚ) : ℚ :=
  if q = 0 then 0 else if 0 < q then droundPos q else qneg (droundPos (qneg q))

/-- Model of `timedelta(seconds=x).total_seconds()` for a float `x`:
the timedelta constructor rounds `x` to whole microseconds (ties to even),
and `total_seconds` returns that microsecond count divided by 10⁶ as a
float, i.e. rounded back to the nearest double. -/
def tdFloat (x : ℚ) : ℚ := dround (qdiv ((pyround (qmul x 1000000) : ℤ) : ℚ) 1000000)

/-- Python float `t % 1`: `t - ⌊t⌋`.  For doubles of the magnitudes used
here this float operation is exact, so no rounding step is modelled. -/
def pymod1 (t : ℚ) : ℚ := qsub t ((pyfloor t : ℤ) : ℚ)

/-- The character for the decimal digit `n % 10`. -/
def digitChar (n : ℕ) : Char := Char.ofNat (48 + n % 10)

/-- Decimal digits of a natural number, most significant first, by fuel
recursion (any fuel above the digit count works; `n + 1` always does). -/
def natDigitsAux : ℕ → ℕ → List Char
  | 0, _ => []
  | fuel + 1, n => if n < 10 then [digitChar n] else natDigitsAux fuel (n / 10) ++ [digitChar (n % 10)]

/-- Decimal digits of a natural number, most significant first. -/
def natDigits (n : ℕ) : List Char := natDigitsAux (n + 1) n

/-- Left-pad a digit list with zeros to width `w` (Python `zfill`). -/
def zpad (w : ℕ) (ds : List Char) : List Char := List.replicate (w - ds.length) '0' ++ ds

/-- Python format `f"{n:0wd}"`: zero-padded decimal of an integer; a sign
counts toward the width, as in Python. -/
def py0pad (w : ℕ) (n : ℤ) : List Char :=
  if n < 0 then '-' :: zpad (w - 1) (natDigits (-n).toNat) else zpad w (natDigits n.toNat)

/-- `srt_time` from `src/app.py`: seconds (a float) to an SRT timestamp
`HH:MM:SS,mmm`.  `total_seconds = int(td.total_seconds())`, then
`divmod(total_seconds, 3600)` and `divmod(remainder, 60)` (floor divmod),
and `milliseconds = int((td.total_seconds() % 1) * 1000)`; the float
product by 1000 is rounded to the nearest double before truncation. -/
def srt_time (seconds : ℚ) : String :=
  let t := tdFloat seconds
  let total := pyint t
  let hours := Int.fdiv total 3600
  let rem := Int.fmod total 3600
  let minutes := Int.fdiv rem 60
  let secs := Int.fmod rem 60
  let ms := pyint (dround (qmul (pymod1 t) 1000))
  ⟨py0pad 2 hours ++ ':' :: py0pad 2 minutes ++ ':' :: py0pad 2 secs ++ ',' :: py0pad 3 ms⟩

/-- `vtt_time` from `src/app.py`: identical to `srt_time` except that the
millisecond separator is a period. -/
def vtt_time (seconds : ℚ) : String :=
  let t := tdFloat seconds
  let total := pyint t
  let hours := Int.fdiv total 3600
  let rem := Int.fmod total 3600
  let minutes := Int.fdiv rem 60
  let secs := Int.fmod rem 60
  let ms := pyint (dround (qmul (pymod1 t) 1000))
  ⟨py0pad 2 hours ++ ':' :: py0pad 2 minutes ++ ':' :: py0pad 2 secs ++ '.' :: py0pad 3 ms⟩

/-- The IEEE-754 double nearest to the decimal 3661.234 (which is not
exactly representable; the double is about 3661.2339999999999236). -/
def d3661_234 : ℚ := mkRat 8051138710017671 2199023255552

/-- The IEEE-754 double nearest to the decimal 4717.933000253492. -/
def d4717_933000253492 : ℚ := mkRat 648427774105853 137438953472

/-- Split a character list at every occurrence of `sep`
(Python `str.split(sep)` for a one-character separator). -/
def splitOnChar (sep : Char) : List Char → List (List Char)
  | [] => [[]]
  | c :: cs =>
    match splitOnChar sep cs with
    | [] => [[]]
    | w :: ws => if c = sep then [] :: w :: ws else (c :: w) :: ws

/-- Python `int(s)` for an optionally signed all-digit string; digit-less or
otherwise malformed input (a `ValueError` in Python) is `none`. -/
def parseDigitsAux : List Char → ℕ → Option ℕ
  | [], acc => some acc
  | c :: cs, acc => if c.isDigit then parseDigitsAux cs (acc * 10 + (c.toNat - 48)) else none

/-- Python `int(s)` on a character list (sign then digits). -/
def pyIntParse : List Char → Option ℤ
  | [] => none
  | '-' :: rest =>
    if rest = [] then none else (parseDigitsAux rest 0).map (fun n => -(n : ℤ))
  | s => (parseDigitsAux s 0).map (fun n => (n : ℤ))

/-- `_parse_timestamp` from `src/multilingual_processor.py`: an SRT
timestamp `HH:MM:SS,mmm` back to seconds, `h*3600 + m*60 + s + ms/1000.0`.
Malformed input (which raises `ValueError` in Python) is modelled as
`none`; the tiny IEEE rounding of the final float sum is not modelled. -/
def parse_timestamp (timestamp_str : String) : Option ℚ :=
  match splitOnChar ',' timestamp_str.data with
  | [timePart, msPart] =>
    match splitOnChar ':' timePart with
    | [hs, mins, ss] =>
      match pyIntParse hs, pyIntParse mins, pyIntParse ss, pyIntParse msPart with
      | some h, some m, some s, some ms =>
        some (qadd (((h * 3600 + m * 60 + s : ℤ) : ℚ)) (qdiv ((ms : ℤ) : ℚ) 1000))
      | _, _, _, _ => none
    | _ => none
  | _ => none

/-- Python `str.strip()`: remove leading and trailing whitespace (the
ASCII whitespace characters suffice for the inputs considered here). -/
def pyStrip (s : String) : String :=
  ⟨((s.data.dropWhile Char.isWhitespace).reverse.dropWhile Char.isWhitespace).reverse⟩

/-- Python `str.split()` with no argument: split on runs of whitespace,
producing no empty words.  The accumulator holds the current word
reversed. -/
def pyWordsAux : List Char → List Char → List String
  | [], acc => if acc = [] then [] else [⟨acc.reverse⟩]
  | c :: cs, acc =>
    if c.isWhitespace then
      if acc = [] then pyWordsAux cs [] else ⟨acc.reverse⟩ :: pyWordsAux cs []
    else pyWordsAux cs (c :: acc)

/-- Python `text.split()`. -/
def pyWords (s : String) : List String := pyWordsAux s.data []

/-- The slices `word[i:i+k]` for `i = 0, k, 2k, …` (fuel recursion; the
character count is enough fuel for any chunk size `k ≥ 1`). -/
def chunkAux : ℕ → ℕ → List Char → List (List Char)
  | 0, _, _ => []
  | _, _, [] => []
  | fuel + 1, k, l => l.take k :: chunkAux fuel k (l.drop k)

/-- The Python list comprehension
`[word[i:i + max_chars] for i in range(0, word_length, max_chars)]`. -/
def chunkStr (w : String) (k : ℕ) : List String :=
  (chunkAux w.data.length k w.data).map (fun l => (⟨l⟩ : String))

/-- Python `' '.join(words)`, at the character level. -/
def sjoinData : List String → List Char
  | [] => []
  | [w] => w.data
  | w :: ws => w.data ++ ' ' :: sjoinData ws

/-- Python `' '.join(words)`. -/
def sjoin (ws : List String) : String := ⟨sjoinData ws⟩

/-- The word loop of `smart_split` (`src/app.py`): arguments are the
remaining words, the flushed lines, the accumulating line's words, and
`current_length`.  In this version appending a word to the accumulating
line grows `current_length` by the word length only — the joining space
is *not* counted. -/
def ssLoop (maxc : ℕ) : List String → List String → List String → ℕ → List String
  | [], lines, cur, _ => if cur = [] then lines else lines ++ [sjoin cur]
  | w :: ws, lines, cur, clen =>
    if maxc < w.length then
      ssLoop maxc ws
        ((if cur = [] then lines else lines ++ [sjoin cur]) ++ (chunkStr w maxc).dropLast)
        [(chunkStr w maxc).getLastD ("")] ((chunkStr w maxc).getLastD ("")).length
    else
      if maxc < clen + w.length + (if cur = [] then 0 else 1) then
        ssLoop maxc ws (lines ++ [sjoin cur]) [w] w.length
      else
        ssLoop maxc ws lines (cur ++ [w]) (clen + w.length)

/-- The word loop of `wrap_text_smart`
(`src/grunge_subtitle_generator.py`): identical to `ssLoop` except that
appending a word to the accumulating line grows `current_length` by the
word length *plus* the joining space. -/
def wtLoop (maxc : ℕ) : List String → List String → List String → ℕ → List String
  | [], lines, cur, _ => if cur = [] then lines else lines ++ [sjoin cur]
  | w :: ws, lines, cur, clen =>
    if maxc < w.length then
      wtLoop maxc ws
        ((if cur = [] then lines else lines ++ [sjoin cur]) ++ (chunkStr w maxc).dropLast)
        [(chunkStr w maxc).getLastD ("")] ((chunkStr w maxc).getLastD ("")).length
    else
      if maxc < clen + w.length + (if cur = [] then 0 else 1) then
        wtLoop maxc ws (lines ++ [sjoin cur]) [w] w.length
      else
        wtLoop maxc ws lines (cur ++ [w]) (clen + w.length + (if cur = [] then 0 else 1))

/-- `smart_split` from `src/app.py`: strip, return `[text]` whole if it
fits, otherwise run the greedy word loop. -/
def smart_split (text : String) (max_chars : ℕ) : List String :=
  if (pyStrip text).length ≤ max_chars then [pyStrip text]
  else ssLoop max_chars (pyWords (pyStrip text)) [] [] 0

/-- `wrap_text_smart` from `src/grunge_subtitle_generator.py`. -/
def wrap_text_smart (text : String) (max_chars_per_line : ℕ) : List String :=
  if (pyStrip text).length ≤ max_chars_per_line then [pyStrip text]
  else wtLoop max_chars_per_line (pyWords (pyStrip text)) [] [] 0

/-- Lower-case hexadecimal digit character for `n < 16`. -/
def hexDigitLower (n : ℕ) : Char := if n < 10 then digitChar n else Char.ofNat (87 + n)

/-- Hexadecimal digits (lower case, most significant first), fuel
recursion as for `natDigitsAux`. -/
def natHexAux : ℕ → ℕ → List Char
  | 0, _ => []
  | fuel + 1, n => if n < 16 then [hexDigitLower n] else natHexAux fuel (n / 16) ++ [hexDigitLower (n % 16)]

/-- Python `hex(n)[2:]` for `n ≥ 0`: the lower-case hex digits without
the `0x` prefix. -/
def natHexLower (n : ℕ) : List Char := natHexAux (n + 1) n

/-- Python `str.upper()` (ASCII). -/
def pyUpper (s : List Char) : List Char := s.map Char.toUpper

/-- The ASS background alpha byte computed by `write_ass` (`src/app.py`):
`hex(int(cfg.background_opacity * 255))[2:].zfill(2).upper()`.
(A negative argument to `hex` — impossible for opacity in `[0, 1]` — is
outside the modelled domain of the `[2:]` slice.) -/
def assAlphaHex (opacity : ℚ) : String :=
  ⟨pyUpper (zpad 2 (natHexLower (pyint (qmul opacity 255)).toNat))⟩

/-- Python format `f"{n:02X}"`: upper-case hex, zero-padded to width 2. -/
def py02X (n : ℕ) : List Char := pyUpper (zpad 2 (natHexLower n))

/-- Value of one hexadecimal digit character (other characters, which
make Python's `int(s, 16)` raise, are outside the modelled domain). -/
def hexVal (c : Char) : ℕ :=
  if c.isDigit then c.toNat - 48
  else if 97 ≤ c.toNat ∧ c.toNat ≤ 102 then c.toNat - 87
  else if 65 ≤ c.toNat ∧ c.toNat ≤ 70 then c.toNat - 55
  else 0

/-- Python `int(s, 16)` on a short slice of hex digits. -/
def parseHex2 (l : List Char) : ℕ := l.foldl (fun acc c => acc * 16 + hexVal c) 0

/-- `hex_to_ass` from `src/app.py`: convert `#RRGGBB` (`#RGB` doubles
each nibble) to ASS `&HAABBGGRR` with upper-case channel bytes; the
alpha argument defaults to `"00"`. -/
def hex_to_ass (hex_color : String) (alpha : String := ("00")) : String :=
  let h := hex_color.data.dropWhile (fun c => c = '#')
  let h2 := if h.length = 3 then h.flatMap (fun c => [c, c]) else h
  ⟨'&' :: 'H' :: alpha.data ++ py02X (parseHex2 ((h2.drop 4).take 2)) ++
    py02X (parseHex2 ((h2.drop 2).take 2)) ++ py02X (parseHex2 (h2.take 2))⟩

/-- Specification-side rendering of a byte as exactly two upper-case hex
digits, written independently of the Python `hex`/`zfill`/`upper` chain
used by `assAlphaHex`. -/
def hexUpper2 (n : ℕ) : List Char :=
  [if n / 16 % 16 < 10 then digitChar (n / 16 % 16) else Char.ofNat (55 + n / 16 % 16),
   if n % 16 < 10 then digitChar (n % 16) else Char.ofNat (55 + n % 16)]

/-- A subtitle segment as parsed in `src/multilingual_processor.py`
(dataclass `SubtitleSegment`; `duration` is stored as `end - start` by
the SRT parser). -/
structure PySegment where
  start : ℚ
  stop : ℚ
  text : String
  duration : ℚ

/-- The speed-adjustment decision of `create_tts_audio_track`
(`src/multilingual_processor.py`): given target and current clip lengths
in milliseconds, the playback ratio passed to `speedup`, or `none` when
no compression is applied.  The float literal `1.2` is modelled as the
decimal 6/5 (the nearest double differs by about 4·10⁻¹⁷, immaterial to
every claim considered). -/
def speedAdjust (targetMs currentMs : ℚ) : Option ℚ :=
  if qmul targetMs (mkRat 12 10) < currentMs then
    if qdiv currentMs targetMs ≤ 2 then some (qdiv currentMs targetMs) else none
  else none

/-- One overlay performed on the silent track: position `start_ms`, the
final clip length after optional compression and truncation, and whether
fades are applied (`len(tts_audio) > 200`). -/
structure Overlay where
  pos : ℤ
  len : ℚ
  fade : Bool

/-- Processing of one non-skipped, successfully loaded clip in
`create_tts_audio_track`: optional speed-up (the length effect of pydub's
`speedup` is the injected `spd`), truncation to the segment bounds, the
fade decision, then overlay at `start_ms`. -/
def segStep (spd : ℚ → ℚ → ℚ) (seg : PySegment) (clipLen : ℚ) (acc : List Overlay) : List Overlay :=
  let targetMs := qmul seg.duration 1000
  let len1 :=
    match speedAdjust targetMs clipLen with
    | some r => spd clipLen r
    | none => clipLen
  let startMs := pyint (qmul seg.start 1000)
  let endMs := pyint (qmul seg.stop 1000)
  let len2 := if ((endMs - startMs : ℤ) : ℚ) < len1 then ((endMs - startMs : ℤ) : ℚ) else len1
  acc ++ [⟨startMs, len2, decide (200 < len2)⟩]

/-- The per-segment loop of `create_tts_audio_track`
(`src/multilingual_processor.py`): `gen i` models the success flag of
`generate_tts_audio` for segment `i`; `load i` models loading the
produced clip (`none` = an exception inside the `try` block, caught and
skipped); `spd` models `speedup`'s effect on clip length. -/
def assembleAux (spd : ℚ → ℚ → ℚ) (gen : ℕ → Bool) (load : ℕ → Option ℚ) :
    List (ℕ × PySegment) → List Overlay → List Overlay
  | [], acc => acc
  | (i, seg) :: rest, acc =>
    if seg.duration < mkRat 1 2 ∨ pyStrip seg.text = ("") then
      assembleAux spd gen load rest acc
    else if gen i = false then
      assembleAux spd gen load rest acc
    else
      match load i with
      | none => assembleAux spd gen load rest acc
      | some clipLen => assembleAux spd gen load rest (segStep spd seg clipLen acc)

/-- The overlay sequence produced by `create_tts_audio_track` over
`enumerate(segments)`, starting from the silent track. -/
def create_tts_audio_track (spd : ℚ → ℚ → ℚ) (gen : ℕ → Bool) (load : ℕ → Option ℚ)
    (segments : List PySegment) : List Overlay :=
  assembleAux spd gen load segments.enum []

/-- Python `str.replace(old, new)` for a one-character pattern and
replacement: equivalently a per-character map. -/
def pyReplaceChar (a b : Char) (s : String) : String :=
  ⟨s.data.map (fun c => if c = a then b else c)⟩

/-- The ASS `Dialogue` event timestamp written by `write_ass`
(`src/app.py`): `vtt_time(t).replace('.', ',')`. -/
def assDialogueStamp (t : ℚ) : String := pyReplaceChar '.' ',' (vtt_time t)

/-- Character-level concatenation of a group of strings. -/
def catStrs : List String → String
  | [] => ⟨[]⟩
  | w :: ws => ⟨w.data ++ (catStrs ws).data⟩

/-- All words of a list of lines, in order. -/
def allWords : List String → List String
  | [] => []
  | l :: ls => pyWords l ++ allWords ls

/-- `Regroups out inp`: the word sequence `out` refines `inp`, i.e. `inp`
is obtained by concatenating consecutive nonempty groups of `out`.  This
is the formal meaning of "the words across the returned lines, re-joining
the slices of any over-long word, are exactly the input's words". -/
inductive Regroups : List String → List String → Prop
  | nil : Regroups [] []
  | group (g : List String) (w : String) (out ws : List String) :
      g ≠ [] → catStrs g = w → Regroups out ws → Regroups (g ++ out) (w :: ws)

theorem qadd_eq (a b : ℚ) : qadd a b = a + b := by
  have ha : ((a.den : ℚ)) ≠ 0 := Nat.cast_ne_zero.mpr a.den_nz
  have hb : ((b.den : ℚ)) ≠ 0 := Nat.cast_ne_zero.mpr b.den_nz
  rw [qadd, Rat.mkRat_eq_div]
  conv_rhs => rw [← Rat.num_div_den a, ← Rat.num_div_den b]
  rw [div_add_div _ _ ha hb]
  push_cast
  ring_nf

theorem qneg_eq (a : ℚ) : qneg a = -a := by
  rw [qneg, Rat.mkRat_eq_div]
  conv_rhs => rw [← Rat.num_div_den a]
  push_cast
  rw [neg_div]

theorem qsub_eq (a b : ℚ) : qsub a b = a - b := by
  rw [qsub, qadd_eq, qneg_eq, sub_eq_add_neg]

theorem qmul_eq (a b : ℚ) : qmul a b = a * b := by
  rw [qmul, Rat.mkRat_eq_div]
  conv_rhs => rw [← Rat.num_div_den a, ← Rat.num_div_den b]
  rw [div_mul_div_comm]
  push_cast
  ring_nf

theorem qinv_eq (a : ℚ) : qinv a = a⁻¹ := by
  rw [qinv, Rat.mkRat_eq_div, Rat.inv_def', Rat.divInt_eq_div]
  by_cases h : 0 ≤ a.num
  · have h4 : ((a.num.natAbs : ℕ) : ℚ) = ((a.num : ℤ) : ℚ) := by
      rw [Int.cast_natAbs, abs_of_nonneg h]
    rw [if_pos h, h4]
  · have h4 : ((a.num.natAbs : ℕ) : ℚ) = ((-a.num : ℤ) : ℚ) := by
      rw [Int.cast_natAbs, abs_of_nonpos (by omega : a.num ≤ 0)]
    rw [if_neg h, h4]
    push_cast
    rw [neg_div_neg_eq]

theorem qdiv_eq (a b : ℚ) : qdiv a b = a / b := by
  rw [qdiv, qmul_eq, qinv_eq, div_eq_mul_inv]

theorem pyfloor_eq (q : ℚ) : pyfloor q = ⌊q⌋ := by
  rw [pyfloor, Rat.floor_def' q, Rat.floor_def]


theorem strdata_mk (l : List Char) : (String.mk l).data = l := rfl

theorem strmk_data (s : String) : String.mk s.data = s := rfl

theorem mkRat_half : (mkRat 1 2 : ℚ) = 1/2 := by
  rw [Rat.mkRat_eq_div]
  norm_num

theorem digitChar_isDigit (n : ℕ) : (digitChar n).isDigit = true := by
  have h : ∀ m, m < 10 → (Char.ofNat (48 + m)).isDigit = true := by decide
  exact h (n % 10) (Nat.mod_lt n (by norm_num))

theorem natDigitsAux_mem (fuel : ℕ) : ∀ (n : ℕ), ∀ c ∈ natDigitsAux fuel n, c.isDigit = true := by
  induction fuel with
  | zero => intro n c hc; simp [natDigitsAux] at hc
  | succ fuel ih =>
    intro n c hc
    rw [natDigitsAux] at hc
    by_cases h : n < 10
    · rw [if_pos h] at hc
      simp at hc
      subst hc
      exact digitChar_isDigit n
    · rw [if_neg h] at hc
      rcases List.mem_append.mp hc with h1 | h1
      · exact ih _ c h1
      · simp at h1
        subst h1
        exact digitChar_isDigit (n % 10)

theorem py0pad_mem (w : ℕ) (n : ℤ) : ∀ c ∈ py0pad w n, c.isDigit = true ∨ c = '-' := by
  have hz : ∀ (ww : ℕ) (ds : List Char), (∀ c ∈ ds, c.isDigit = true) →
      ∀ c ∈ zpad ww ds, c.isDigit = true := by
    intro ww ds hds c hc
    rw [zpad] at hc
    rcases List.mem_append.mp hc with h1 | h1
    · rw [List.eq_of_mem_replicate h1]
      decide
    · exact hds c h1
  intro c hc
  rw [py0pad] at hc
  by_cases h : n < 0
  · rw [if_pos h] at hc
    rcases List.mem_cons.mp hc with h1 | h1
    · exact Or.inr h1
    · exact Or.inl (hz _ _ (natDigitsAux_mem _ _) c h1)
  · rw [if_neg h] at hc
    exact Or.inl (hz _ _ (natDigitsAux_mem _ _) c hc)

theorem map_eq_self_of_fix (f : Char → Char) :
    ∀ (l : List Char), (∀ c ∈ l, f c = c) → l.map f = l := by
  intro l h
  induction l with
  | nil => rfl
  | cons c cs ih =>
    rw [List.map_cons, h c (List.mem_cons_self c cs),
      ih (fun d hd => h d (List.mem_cons_of_mem c hd))]

theorem replace_core (f : Char → Char) (hf : ∀ c, (c.isDigit = true ∨ c = '-') → f c = c)
    (hcolon : f ':' = ':') (sep sep2 : Char) (hsep : f sep = sep2)
    (h m s ms : ℤ) :
    (py0pad 2 h ++ ':' :: py0pad 2 m ++ ':' :: py0pad 2 s ++ sep :: py0pad 3 ms).map f
      = py0pad 2 h ++ ':' :: py0pad 2 m ++ ':' :: py0pad 2 s ++ sep2 :: py0pad 3 ms := by
  have fix : ∀ (w : ℕ) (n : ℤ), (py0pad w n).map f = py0pad w n := fun w n =>
    map_eq_self_of_fix f _ (fun c hc => hf c (py0pad_mem w n c hc))
  simp only [List.map_append, List.map_cons, fix, hcolon, hsep]

/-- Claim C10: for every seconds value, `vtt_time` is `srt_time` with the
comma separator replaced by a period (all digit fields agree), and the
ASS Dialogue timestamp — `vtt_time` with `'.'` replaced by `','` — is
character-for-character equal to `srt_time`'s output. -/
theorem C10_separator_relation (x : ℚ) :
    pyReplaceChar ',' '.' (srt_time x) = vtt_time x ∧ assDialogueStamp x = srt_time x := by
  have hf1 : ∀ c : Char, (c.isDigit = true ∨ c = '-') → (if c = ',' then '.' else c) = c := by
    intro c hc
    rcases hc with hd | hd
    · rw [if_neg]
      rintro rfl
      exact absurd hd (by decide)
    · subst hd
      decide
  have hf2 : ∀ c : Char, (c.isDigit = true ∨ c = '-') → (if c = '.' then ',' else c) = c := by
    intro c hc
    rcases hc with hd | hd
    · rw [if_neg]
      rintro rfl
      exact absurd hd (by decide)
    · subst hd
      decide
  constructor
  · simp only [pyReplaceChar, srt_time, vtt_time, strdata_mk]
    exact congrArg String.mk (replace_core _ hf1 (by decide) ',' '.' (by decide) _ _ _ _)
  · simp only [assDialogueStamp, pyReplaceChar, srt_time, vtt_time, strdata_mk]
    exact congrArg String.mk (replace_core _ hf2 (by decide) '.' ',' (by decide) _ _ _ _)


theorem mkRat_6_5 : (mkRat 12 10 : ℚ) = 6/5 := by
  rw [Rat.mkRat_eq_div]
  norm_num

theorem speedAdjust_eq (t c : ℚ) :
    speedAdjust t c =
      if t * (6/5) < c then (if c / t ≤ 2 then some (c / t) else none) else none := by
  simp only [speedAdjust, qmul_eq, qdiv_eq, mkRat_6_5]

/-- Claim C1: the guard of `smart_split` counts the joining space
(`space_needed`), but `current_length` is never increased by it, so an
accumulated line can exceed `max_chars`: with `max_chars = 5` the input
`"a b c d"` comes back as the single 7-character line `"a b c d"`.  The
twin implementation `wrap_text_smart` does count the space, showing the
bound was the intent. -/
theorem C1_smart_split_overruns_max :
    smart_split ("a b c d") 5 = [("a b c d")] ∧
    ¬ (∀ l ∈ smart_split ("a b c d") 5, l.length ≤ 5) := by
  constructor
  · decide
  · decide

/-- Claim C2 counterexample: for a 2.0 s segment (target 2000 ms) and a
5.0 s clip (ratio 2.5 > 2.0) the code applies no compression at all —
`speedup` is never called — whereas the claim asserts compression is
still applied at the capped ratio 2.0. -/
theorem C2_counterexample :
    speedAdjust 2000 5000 = none ∧ (none : Option ℚ) ≠ some (2 : ℚ) := by
  constructor
  · decide
  · decide

/-- Claim C2 (amended): when `current > target * 1.2` the ratio
`current/target` is applied only if it is at most 2.0 (so the 2.0 s
segment with a 4.0 s clip gets ratio exactly 2); a ratio above 2.0 is
not capped — compression is skipped entirely; below the 1.2 threshold
the clip is unmodified. -/
theorem C2_speedAdjust_spec :
    speedAdjust 2000 4000 = some 2 ∧
    (∀ t c : ℚ, c ≤ t * (6/5) → speedAdjust t c = none) ∧
    (∀ t c : ℚ, t * (6/5) < c → c / t ≤ 2 → speedAdjust t c = some (c / t)) ∧
    (∀ t c : ℚ, 2 < c / t → speedAdjust t c = none) := by
  refine ⟨by decide, ?_, ?_, ?_⟩
  · intro t c h
    rw [speedAdjust_eq, if_neg (not_lt.mpr h)]
  · intro t c h1 h2
    rw [speedAdjust_eq, if_pos h1, if_pos h2]
  · intro t c h
    rw [speedAdjust_eq]
    by_cases h1 : t * (6/5) < c
    · rw [if_pos h1, if_neg (not_le.mpr h)]
    · rw [if_neg h1]

theorem C2_speedAdjust_spec_witness :
    (2 : ℚ) < 5000/2000 ∧ speedAdjust 2000 5000 = none :=
  ⟨by norm_num, C2_speedAdjust_spec.2.2.2 2000 5000 (by norm_num)⟩

/-- Claim C3: the formatter does truncate, but on the float input
3661.234 — whose IEEE double is 3661.23399999999992… — the millisecond
field computed by `int((t % 1) * 1000)` is 233, not the claimed 234;
`vtt_time(0.0)` is `"00:00:00.000"` as claimed. -/
theorem C3_srt_time_on_float_3661_234 :
    srt_time d3661_234 = ("01:01:01,233") ∧ vtt_time 0 = ("00:00:00.000") := by
  constructor
  · decide
  · decide

/-- Claim C5 counterexample: a negative input does not fail — there is no
`InvalidTimestamp` path in the code at all; `srt_time(-0.5)` returns the
perfectly well-formed timestamp string `"00:00:00,500"`. -/
theorem C5_counterexample :
    srt_time (-(1/2 : ℚ)) = ("00:00:00,500") ∧ vtt_time (-(1/2 : ℚ)) = ("00:00:00.500") := by
  have h : (-(1/2 : ℚ)) = qneg (mkRat 1 2) := by
    rw [qneg_eq, mkRat_half]
  rw [h]
  constructor
  · decide
  · decide

/-- Claim C5 (amended): negative inputs are not rejected; the formatters
return strings computed with Python's floor/truncation semantics, e.g.
`srt_time(-1.5) = "-1:59:59,500"` (and `srt_time(-0.5) = "00:00:00,500"`,
see the counterexample). -/
theorem C5_negative_formats_to_string :
    srt_time (-(3/2 : ℚ)) = ("-1:59:59,500") ∧ vtt_time (-(3/2 : ℚ)) = ("-1:59:59.500") := by
  have h : (-(3/2 : ℚ)) = qneg (mkRat 3 2) := by
    rw [qneg_eq, Rat.mkRat_eq_div]
    norm_num
  rw [h]
  constructor
  · decide
  · decide

/-- Claim C6: the 1 ms round-trip bound fails on the real code.  For the
float input 4717.933000253492 (a value 0.25349… µs above a millisecond
boundary), timedelta's microsecond rounding followed by the float
division in `total_seconds()` lands just below 4717.933, the millisecond
field truncates to 932, and the parsed value 4717.932 differs from the
input by more than 1/1000. -/
theorem C6_roundtrip_error_exceeds_1ms :
    parse_timestamp (srt_time d4717_933000253492) = some (4717932/1000 : ℚ) ∧
    d4717_933000253492 - 4717932/1000 > 1/1000 := by
  constructor
  · have h : (4717932/1000 : ℚ) = mkRat 1179483 250 := by
      rw [Rat.mkRat_eq_div]
      norm_num
    rw [h]
    decide
  · have h : d4717_933000253492 = 648427774105853 / 137438953472 := by
      rw [d4717_933000253492, Rat.mkRat_eq_div]
      norm_num
    rw [h]
    norm_num

/-- Claim C8: a segment of duration below 0.5 s or with empty stripped
text is skipped non-fatally (no overlay is produced for it and assembly
continues with the remaining segments unchanged), and likewise a
synthesis failure (`gen i = false`) or an exception while processing the
clip (`load i = none`) skips just that segment. -/
theorem C8_skip_semantics (spd : ℚ → ℚ → ℚ) (gen : ℕ → Bool) (load : ℕ → Option ℚ)
    (i : ℕ) (seg : PySegment) (rest : List (ℕ × PySegment)) (acc : List Overlay) :
    ((seg.duration < 1/2 ∨ pyStrip seg.text = ("")) →
      assembleAux spd gen load ((i, seg) :: rest) acc = assembleAux spd gen load rest acc) ∧
    (gen i = false →
      assembleAux spd gen load ((i, seg) :: rest) acc = assembleAux spd gen load rest acc) ∧
    (load i = none →
      assembleAux spd gen load ((i, seg) :: rest) acc = assembleAux spd gen load rest acc) := by
  refine ⟨fun h => ?_, fun h => ?_, fun h => ?_⟩
  · simp only [assembleAux]
    rw [if_pos (by rw [mkRat_half]; exact h)]
  · simp only [assembleAux, h, eq_self_iff_true, if_true, ite_self]
  · simp only [assembleAux, h, ite_self]

theorem C8_skip_semantics_witness :
    ((⟨0, 1, ("hi"), mkRat 3 10⟩ : PySegment).duration < 1/2 ∨
      pyStrip (⟨0, 1, ("hi"), mkRat 3 10⟩ : PySegment).text = ("")) ∧
    assembleAux (fun c _ => c) (fun _ => true) (fun _ => some 1000)
        [(0, ⟨0, 1, ("hi"), mkRat 3 10⟩)] [] =
      assembleAux (fun c _ => c) (fun _ => true) (fun _ => some 1000) [] [] := by
  have hd : ((⟨0, 1, ("hi"), mkRat 3 10⟩ : PySegment).duration : ℚ) < 1/2 := by
    show (mkRat 3 10 : ℚ) < 1/2
    rw [Rat.mkRat_eq_div]
    norm_num
  exact ⟨Or.inl hd,
    (C8_skip_semantics (fun c _ => c) (fun _ => true) (fun _ => some 1000) 0 _ [] []).1 (Or.inl hd)⟩


set_option maxRecDepth 4000 in
theorem hex2_eq_hexUpper2 :
    ∀ n : ℕ, n ≤ 255 → pyUpper (zpad 2 (natHexLower n)) = hexUpper2 n := by decide

/-- Claim C4 counterexample: at background opacity 0.5 the Style line's
alpha byte is `"7F"` — the code truncates, `int(0.5*255) = 127` — while
the claimed `round(0.5*255) = 128` renders as `"80"`. -/
theorem C4_counterexample :
    assAlphaHex (1/2 : ℚ) = ("7F") ∧
    pyround ((1/2 : ℚ) * 255) = 128 ∧
    String.mk (hexUpper2 128) = ("80") ∧
    ("7F" : String) ≠ ("80" : String) := by
  refine ⟨?_, ?_, by decide, by decide⟩
  · have h : (1/2 : ℚ) = mkRat 1 2 := mkRat_half.symm
    rw [h]
    decide
  · have h : (1/2 : ℚ) * 255 = mkRat 255 2 := by
      rw [Rat.mkRat_eq_div]
      norm_num
    rw [h]
    decide

/-- Claim C4 (amended): for opacity in `[0, 1]` the background alpha byte
written into the ASS Style line is the *truncation* `int(opacity * 255)`
rendered as exactly two upper-case hex digits (not `round`), and every
colour written through `hex_to_ass`'s default alpha — the foreground and
outline colours — starts with `&H00`, fully opaque. -/
theorem C4_alpha_truncation_spec (op : ℚ) (h0 : 0 ≤ op) (h1 : op ≤ 1) :
    assAlphaHex op = String.mk (hexUpper2 (pyint (op * 255)).toNat) ∧
    ∀ c : String, (hex_to_ass c).data.take 4 = ['&', 'H', '0', '0'] := by
  constructor
  · have hnn : (0 : ℚ) ≤ op * 255 := by positivity
    have hfl : pyint (op * 255) = ⌊op * 255⌋ := by
      rw [pyint, if_pos hnn, pyfloor_eq]
    have hub : ⌊op * 255⌋ ≤ 255 := by
      have h2 : op * 255 ≤ 255 := by nlinarith
      calc ⌊op * 255⌋ ≤ ⌊(255 : ℚ)⌋ := Int.floor_le_floor h2
        _ = 255 := by norm_num
    have hbound : (pyint (op * 255)).toNat ≤ 255 := by omega
    rw [assAlphaHex, qmul_eq]
    exact congrArg String.mk (hex2_eq_hexUpper2 _ hbound)
  · intro c
    rfl

theorem C4_alpha_truncation_spec_witness :
    (0 : ℚ) ≤ 1/2 ∧ (1/2 : ℚ) ≤ 1 ∧
    assAlphaHex (1/2) = String.mk (hexUpper2 (pyint ((1/2 : ℚ) * 255)).toNat) ∧
    (hex_to_ass ("#FF8800")).data.take 4 = ['&', 'H', '0', '0'] :=
  ⟨by norm_num, by norm_num,
    (C4_alpha_truncation_spec (1/2) (by norm_num) (by norm_num)).1,
    (C4_alpha_truncation_spec (1/2) (by norm_num) (by norm_num)).2 ("#FF8800")⟩

theorem loops_agree_nil (maxc : ℕ) (lines cur : List String) (n n2 : ℕ) :
    ssLoop maxc [] lines cur n = wtLoop maxc [] lines cur n2 := rfl

theorem loops_agree_single (maxc : ℕ) (w : String) (lines cur : List String) (n : ℕ) :
    ssLoop maxc [w] lines cur n = wtLoop maxc [w] lines cur n := by
  simp only [ssLoop, wtLoop]

theorem loops_agree_two (maxc : ℕ) (w1 w2 : String) :
    ssLoop maxc [w1, w2] [] [] 0 = wtLoop maxc [w1, w2] [] [] 0 := by
  simp only [ssLoop, wtLoop]
  norm_num

/-- Claim C9 counterexample: the two wrappers disagree on `"a b c d"`
with limit 5 (`smart_split` keeps all four words on one 7-character
line, `wrap_text_smart` breaks after `"a b c"`). -/
theorem C9_counterexample :
    smart_split ("a b c d") 5 ≠ wrap_text_smart ("a b c d") 5 := by decide

/-- Claim C9 (amended): the implementations differ only in whether the
joining space is counted into `current_length`, so they agree on every
input of at most two whitespace-separated words (the discrepancy needs a
third word to become observable), but are not extensionally equal. -/
theorem C9_agree_on_at_most_two_words (text : String) (maxc : ℕ) (h1 : 1 ≤ maxc)
    (h2 : (pyWords (pyStrip text)).length ≤ 2) :
    smart_split text maxc = wrap_text_smart text maxc := by
  rw [smart_split, wrap_text_smart]
  by_cases hl : (pyStrip text).length ≤ maxc
  · rw [if_pos hl, if_pos hl]
  · rw [if_neg hl, if_neg hl]
    rcases hw : pyWords (pyStrip text) with _ | ⟨w1, rest1⟩
    · exact loops_agree_nil maxc [] [] 0 0
    · rcases rest1 with _ | ⟨w2, rest2⟩
      · exact loops_agree_single maxc w1 [] [] 0
      · have hr : rest2 = [] := by
          rw [hw] at h2
          simpa using h2
        subst hr
        exact loops_agree_two maxc w1 w2

theorem C9_agree_witness :
    1 ≤ 3 ∧ (pyWords (pyStrip ("ab cd"))).length ≤ 2 ∧
    smart_split ("ab cd") 3 = wrap_text_smart ("ab cd") 3 :=
  ⟨by norm_num, by decide, C9_agree_on_at_most_two_words ("ab cd") 3 (by norm_num) (by decide)⟩


theorem str_ne_empty_iff (s : String) : s ≠ ("") ↔ s.data ≠ [] := by
  constructor
  · intro h hdata
    apply h
    have h2 : String.mk s.data = String.mk [] := by rw [hdata]
    rw [strmk_data] at h2
    exact h2
  · intro h hs
    apply h
    rw [hs]

theorem pyWordsAux_mem_all :
    ∀ (l acc : List Char), (∀ c ∈ acc, c.isWhitespace = false) →
      ∀ w ∈ pyWordsAux l acc, w ≠ ("") ∧ ∀ c ∈ w.data, c.isWhitespace = false := by
  intro l
  induction l with
  | nil =>
    intro acc hacc w hw
    rw [pyWordsAux] at hw
    by_cases h : acc = []
    · rw [if_pos h] at hw
      simp at hw
    · rw [if_neg h] at hw
      simp at hw
      subst hw
      constructor
      · rw [str_ne_empty_iff, strdata_mk]
        simpa using h
      · intro c hc
        rw [strdata_mk] at hc
        exact hacc c (List.mem_reverse.mp hc)
  | cons d ds ih =>
    intro acc hacc w hw
    rw [pyWordsAux] at hw
    by_cases h : d.isWhitespace = true
    · rw [if_pos h] at hw
      by_cases h2 : acc = []
      · rw [if_pos h2] at hw
        exact ih [] (by simp) w hw
      · rw [if_neg h2] at hw
        rcases List.mem_cons.mp hw with h3 | h3
        · subst h3
          constructor
          · rw [str_ne_empty_iff, strdata_mk]
            simpa using h2
          · intro c hc
            rw [strdata_mk] at hc
            exact hacc c (List.mem_reverse.mp hc)
        · exact ih [] (by simp) w h3
    · rw [if_neg h] at hw
      refine ih (d :: acc) ?_ w hw
      intro c hc
      rcases List.mem_cons.mp hc with h3 | h3
      · subst h3
        simpa using h
      · exact hacc c h3

theorem pyWordsAux_acc_ne_nil :
    ∀ (l acc : List Char), acc ≠ [] → pyWordsAux l acc ≠ [] := by
  intro l
  induction l with
  | nil =>
    intro acc h
    rw [pyWordsAux, if_neg h]
    simp
  | cons d ds ih =>
    intro acc h
    rw [pyWordsAux]
    by_cases hws : d.isWhitespace = true
    · rw [if_pos hws, if_neg h]
      simp
    · rw [if_neg hws]
      exact ih (d :: acc) (by simp)

theorem pyWordsAux_front_word :
    ∀ (wd : List Char), (∀ c ∈ wd, c.isWhitespace = false) →
      ∀ (l acc : List Char), pyWordsAux (wd ++ l) acc = pyWordsAux l (wd.reverse ++ acc) := by
  intro wd
  induction wd with
  | nil =>
    intro _ l acc
    simp
  | cons d ds ih =>
    intro h l acc
    rw [List.cons_append, pyWordsAux, if_neg (by simp [h d (List.mem_cons_self d ds)])]
    rw [ih (fun c hc => h c (List.mem_cons_of_mem d hc)) l (d :: acc)]
    congr 1
    simp

theorem pyWords_single (w : String) (hne : w ≠ ("")) (hws : ∀ c ∈ w.data, c.isWhitespace = false) :
    pyWords w = [w] := by
  have hd : w.data ≠ [] := (str_ne_empty_iff w).mp hne
  rw [pyWords]
  have h0 : pyWordsAux w.data [] = pyWordsAux (w.data ++ []) [] := by rw [List.append_nil]
  rw [h0, pyWordsAux_front_word w.data hws [] []]
  rw [pyWordsAux, if_neg (by simpa using hd)]
  simp [strmk_data]

theorem sjoin_ne_empty (ws : List String) (hne : ws ≠ []) (h : ∀ w ∈ ws, w ≠ ("")) :
    sjoin ws ≠ ("") := by
  rw [str_ne_empty_iff, sjoin, strdata_mk]
  cases ws with
  | nil => exact absurd rfl hne
  | cons w rest =>
    cases rest with
    | nil =>
      rw [sjoinData]
      exact (str_ne_empty_iff w).mp (h w (List.mem_cons_self w []))
    | cons r rs =>
      rw [sjoinData]
      · simp
      · exact List.cons_ne_nil r rs

theorem pyWords_sjoin :
    ∀ (ws : List String), ws ≠ [] →
      (∀ w ∈ ws, w ≠ ("") ∧ ∀ c ∈ w.data, c.isWhitespace = false) →
      pyWords (sjoin ws) = ws := by
  intro ws
  induction ws with
  | nil =>
    intro h
    exact absurd rfl h
  | cons w rest ih =>
    intro _ h
    obtain ⟨hw1, hw2⟩ := h w (List.mem_cons_self w rest)
    cases rest with
    | nil =>
      have h1 : sjoin [w] = w := by
        rw [sjoin, sjoinData, strmk_data]
      rw [h1]
      exact pyWords_single w hw1 hw2
    | cons r rs =>
      have h1 : (sjoin (w :: r :: rs)).data = w.data ++ ' ' :: sjoinData (r :: rs) := by
        rw [sjoin, strdata_mk, sjoinData]
        exact List.cons_ne_nil r rs
      rw [pyWords, h1, pyWordsAux_front_word w.data hw2 _ []]
      rw [pyWordsAux, if_pos (by decide : (' ').isWhitespace = true),
        if_neg (by simpa using (str_ne_empty_iff w).mp hw1)]
      have h2 : String.mk ((w.data.reverse ++ []).reverse) = w := by
        simp [strmk_data]
      rw [h2]
      have h3 : pyWordsAux (sjoinData (r :: rs)) [] = pyWords (sjoin (r :: rs)) := by
        rw [pyWords, sjoin, strdata_mk]
      rw [h3, ih (by simp) (fun x hx => h x (List.mem_cons_of_mem w hx))]

theorem pyWordsAux_allws :
    ∀ (l : List Char), (∀ c ∈ l, c.isWhitespace = true) →
      ∀ acc, pyWordsAux l acc = if acc = [] then [] else [String.mk acc.reverse] := by
  intro l
  induction l with
  | nil =>
    intro _ acc
    rw [pyWordsAux]
  | cons d ds ih =>
    intro h acc
    rw [pyWordsAux, if_pos (h d (List.mem_cons_self d ds))]
    by_cases h2 : acc = []
    · rw [if_pos h2, ih (fun c hc => h c (List.mem_cons_of_mem d hc)) [], if_pos rfl, if_pos h2]
    · rw [if_neg h2, ih (fun c hc => h c (List.mem_cons_of_mem d hc)) [], if_pos rfl, if_neg h2]

theorem pyWordsAux_front_ws :
    ∀ (pre : List Char), (∀ c ∈ pre, c.isWhitespace = true) →
      ∀ l, pyWordsAux (pre ++ l) [] = pyWordsAux l [] := by
  intro pre
  induction pre with
  | nil =>
    intro _ l
    rfl
  | cons d ds ih =>
    intro h l
    rw [List.cons_append, pyWordsAux, if_pos (h d (List.mem_cons_self d ds)), if_pos rfl]
    exact ih (fun c hc => h c (List.mem_cons_of_mem d hc)) l

theorem pyWordsAux_ws_suffix :
    ∀ (l suf : List Char), (∀ c ∈ suf, c.isWhitespace = true) →
      ∀ acc, pyWordsAux (l ++ suf) acc = pyWordsAux l acc := by
  intro l
  induction l with
  | nil =>
    intro suf h acc
    rw [List.nil_append, pyWordsAux_allws suf h acc, pyWordsAux]
  | cons d ds ih =>
    intro suf h acc
    rw [List.cons_append, pyWordsAux, pyWordsAux]
    by_cases hws : d.isWhitespace = true
    · rw [if_pos hws, if_pos hws]
      by_cases h2 : acc = []
      · rw [if_pos h2, if_pos h2, ih suf h []]
      · rw [if_neg h2, if_neg h2, ih suf h []]
    · rw [if_neg hws, if_neg hws]
      exact ih suf h (d :: acc)

theorem dropWhile_head_false (p : Char → Bool) :
    ∀ (l : List Char) (x : Char) (xs : List Char), l.dropWhile p = x :: xs → p x = false := by
  intro l
  induction l with
  | nil =>
    intro x xs h
    simp [List.dropWhile] at h
  | cons d ds ih =>
    intro x xs h
    rw [List.dropWhile_cons] at h
    by_cases hd : p d = true
    · rw [if_pos hd] at h
      exact ih x xs h
    · rw [if_neg hd] at h
      injection h with h1 h2
      subst h1
      simpa using hd

theorem pyStrip_decomp (s : String) :
    s.data.dropWhile Char.isWhitespace = (pyStrip s).data ++
      ((s.data.dropWhile Char.isWhitespace).reverse.takeWhile Char.isWhitespace).reverse := by
  conv_lhs => rw [← List.reverse_reverse (s.data.dropWhile Char.isWhitespace),
    ← List.takeWhile_append_dropWhile Char.isWhitespace (s.data.dropWhile Char.isWhitespace).reverse]
  rw [List.reverse_append]
  rfl

theorem pyWords_strip (s : String) : pyWords (pyStrip s) = pyWords s := by
  have hpre : ∀ c ∈ s.data.takeWhile Char.isWhitespace, c.isWhitespace = true :=
    fun c hc => List.mem_takeWhile_imp hc
  have hsuf : ∀ c ∈ ((s.data.dropWhile Char.isWhitespace).reverse.takeWhile Char.isWhitespace).reverse,
      c.isWhitespace = true :=
    fun c hc => List.mem_takeWhile_imp (List.mem_reverse.mp hc)
  have hdecomp : s.data = s.data.takeWhile Char.isWhitespace ++
      ((pyStrip s).data ++
        ((s.data.dropWhile Char.isWhitespace).reverse.takeWhile Char.isWhitespace).reverse) := by
    conv_lhs => rw [← List.takeWhile_append_dropWhile Char.isWhitespace s.data,
      pyStrip_decomp s]
  conv_rhs => rw [pyWords, hdecomp]
  rw [pyWordsAux_front_ws _ hpre, pyWordsAux_ws_suffix _ _ hsuf]
  rfl

theorem pyWords_ne_nil_of_strip (s : String) (h : pyStrip s ≠ ("")) : pyWords s ≠ [] := by
  rw [← pyWords_strip]
  have hd : (pyStrip s).data ≠ [] := (str_ne_empty_iff _).mp h
  rcases hcase : (pyStrip s).data with _ | ⟨x, xs⟩
  · exact absurd hcase hd
  · have hx : x.isWhitespace = false := by
      refine dropWhile_head_false Char.isWhitespace s.data x
        (xs ++ ((s.data.dropWhile Char.isWhitespace).reverse.takeWhile Char.isWhitespace).reverse) ?_
      conv_lhs => rw [pyStrip_decomp s]
      rw [hcase, List.cons_append]
    rw [pyWords, hcase, pyWordsAux, if_neg (by simp [hx])]
    exact pyWordsAux_acc_ne_nil xs [x] (by simp)


theorem chunkAux_flatten (k : ℕ) (hk : 1 ≤ k) :
    ∀ (fuel : ℕ) (l : List Char), l.length ≤ fuel → (chunkAux fuel k l).flatten = l := by
  intro fuel
  induction fuel with
  | zero =>
    intro l h
    have h2 : l = [] := List.eq_nil_of_length_eq_zero (Nat.le_zero.mp h)
    subst h2
    rfl
  | succ fuel ih =>
    intro l h
    cases l with
    | nil => rfl
    | cons c cs =>
      have hlen : ((c :: cs).drop k).length ≤ fuel := by
        rw [List.length_drop]
        simp only [List.length_cons] at h ⊢
        omega
      rw [chunkAux]
      · rw [List.flatten_cons, ih ((c :: cs).drop k) hlen]
        exact List.take_append_drop k (c :: cs)
      · exact List.cons_ne_nil c cs

theorem chunkAux_mem (k : ℕ) (hk : 1 ≤ k) :
    ∀ (fuel : ℕ) (l : List Char), ∀ p ∈ chunkAux fuel k l, p ≠ [] ∧ ∀ c ∈ p, c ∈ l := by
  intro fuel
  induction fuel with
  | zero =>
    intro l p hp
    simp [chunkAux] at hp
  | succ fuel ih =>
    intro l p hp
    cases l with
    | nil => simp [chunkAux] at hp
    | cons c cs =>
      rw [chunkAux] at hp
      case x_3 => exact List.cons_ne_nil c cs
      rcases List.mem_cons.mp hp with h1 | h1
      · subst h1
        constructor
        · cases k with
          | zero => omega
          | succ k2 => simp [List.take]
        · intro x hx
          exact List.take_subset k (c :: cs) hx
      · obtain ⟨hne, hsub⟩ := ih ((c :: cs).drop k) p h1
        exact ⟨hne, fun x hx => List.drop_subset k (c :: cs) (hsub x hx)⟩

theorem chunkStr_props (w : String) (k : ℕ) (hk : 1 ≤ k)
    (hws : ∀ c ∈ w.data, c.isWhitespace = false) :
    ∀ p ∈ chunkStr w k, p ≠ ("") ∧ ∀ c ∈ p.data, c.isWhitespace = false := by
  intro p hp
  rw [chunkStr] at hp
  obtain ⟨l, hl, hpl⟩ := List.mem_map.mp hp
  subst hpl
  obtain ⟨hne, hsub⟩ := chunkAux_mem k hk _ _ l hl
  constructor
  · rw [str_ne_empty_iff, strdata_mk]
    exact hne
  · intro c hc
    rw [strdata_mk] at hc
    exact hws c (hsub c hc)

theorem chunkStr_cat (w : String) (k : ℕ) (hk : 1 ≤ k) : catStrs (chunkStr w k) = w := by
  rw [chunkStr]
  have h1 : ∀ (ll : List (List Char)),
      catStrs (ll.map (fun l => String.mk l)) = String.mk ll.flatten := by
    intro ll
    induction ll with
    | nil => rfl
    | cons l ls ih =>
      rw [List.map_cons, catStrs, ih, strdata_mk, strdata_mk, List.flatten_cons]
  rw [h1, chunkAux_flatten k hk _ _ (le_refl _), strmk_data]

theorem chunkStr_ne_nil (w : String) (k : ℕ) (hw : w.data ≠ []) : chunkStr w k ≠ [] := by
  rw [chunkStr]
  rcases hcase : w.data with _ | ⟨c, cs⟩
  · exact absurd hcase hw
  · rw [List.length_cons, chunkAux]
    · simp
    · exact List.cons_ne_nil c cs

theorem dropLast_append_getLastD :
    ∀ (l : List String) (d : String), l ≠ [] → l.dropLast ++ [l.getLastD d] = l := by
  intro l
  induction l with
  | nil =>
    intro d h
    exact absurd rfl h
  | cons x rest ih =>
    intro d _
    cases rest with
    | nil => rfl
    | cons y ys =>
      have h2 := ih (d := x) (by simp)
      simp only [List.getLastD_cons] at h2
      simp only [List.dropLast_cons₂, List.getLastD_cons, List.cons_append]
      rw [h2]

theorem catStrs_singleton (w : String) : catStrs [w] = w := by
  rw [catStrs, catStrs]
  simp [strmk_data]

theorem regroups_refl : ∀ (l : List String), Regroups l l := by
  intro l
  induction l with
  | nil => exact Regroups.nil
  | cons w rest ih =>
    have h := Regroups.group [w] w rest rest (by simp) (catStrs_singleton w) ih
    simpa using h

theorem regroups_append_single {a b : List String} (h : Regroups a b) (w : String) :
    Regroups (a ++ [w]) (b ++ [w]) := by
  induction h with
  | nil =>
    have h2 := Regroups.group [w] w [] [] (by simp) (catStrs_singleton w) Regroups.nil
    simpa using h2
  | group g v out ws hne hcat hrec ih =>
    rw [List.append_assoc, List.cons_append]
    exact Regroups.group g v (out ++ [w]) (ws ++ [w]) hne hcat ih

theorem regroups_append_group {a b : List String} (h : Regroups a b) (g : List String)
    (w : String) (hg : g ≠ []) (hcat : catStrs g = w) : Regroups (a ++ g) (b ++ [w]) := by
  induction h with
  | nil =>
    have h2 := Regroups.group g w [] [] hg hcat Regroups.nil
    simpa using h2
  | group g2 v out ws hne hcat2 hrec ih =>
    rw [List.append_assoc, List.cons_append]
    exact Regroups.group g2 v (out ++ g) (ws ++ [w]) hne hcat2 ih

theorem regroups_out_ne_nil {out : List String} {w : String} {ws : List String}
    (h : Regroups out (w :: ws)) : out ≠ [] := by
  cases h with
  | group g v out2 ws2 hne hcat hrec =>
    intro hc
    exact hne (List.append_eq_nil.mp hc).1

theorem allWords_append : ∀ (a b : List String), allWords (a ++ b) = allWords a ++ allWords b := by
  intro a b
  induction a with
  | nil => rfl
  | cons x xs ih =>
    rw [List.cons_append, allWords, allWords, ih, List.append_assoc]

theorem allWords_of_single :
    ∀ (l : List String), (∀ w ∈ l, pyWords w = [w]) → allWords l = l := by
  intro l
  induction l with
  | nil =>
    intro _
    rfl
  | cons x xs ih =>
    intro h
    rw [allWords, h x (List.mem_cons_self x xs),
      ih (fun w hw => h w (List.mem_cons_of_mem x hw))]
    rfl


theorem getLastD_mem : ∀ (l : List String) (d : String), l ≠ [] → l.getLastD d ∈ l := by
  intro l
  induction l with
  | nil =>
    intro d h
    exact absurd rfl h
  | cons x rest ih =>
    intro d _
    cases rest with
    | nil => simp [List.getLastD]
    | cons y ys =>
      rw [List.getLastD_cons]
      exact List.mem_cons_of_mem x (ih x (by simp))

theorem ssLoop_spec (maxc : ℕ) (hmax : 1 ≤ maxc) :
    ∀ (ws lines cur : List String) (clen : ℕ) (pre : List String),
      (∀ l ∈ lines, l ≠ ("")) →
      (∀ w ∈ cur, w ≠ ("") ∧ ∀ c ∈ w.data, c.isWhitespace = false) →
      (∀ w ∈ ws, w ≠ ("") ∧ ∀ c ∈ w.data, c.isWhitespace = false) →
      (cur = [] → clen = 0) →
      Regroups (allWords lines ++ cur) pre →
      (∀ l ∈ ssLoop maxc ws lines cur clen, l ≠ ("")) ∧
      Regroups (allWords (ssLoop maxc ws lines cur clen)) (pre ++ ws) := by
  intro ws
  induction ws with
  | nil =>
    intro lines cur clen pre hlines hcur hws hcz hreg
    rw [ssLoop]
    by_cases hc : cur = []
    · rw [if_pos hc]
      subst hc
      refine ⟨hlines, ?_⟩
      simpa using hreg
    · rw [if_neg hc]
      refine ⟨?_, ?_⟩
      · intro l hl
        rcases List.mem_append.mp hl with h1 | h1
        · exact hlines l h1
        · simp at h1
          subst h1
          exact sjoin_ne_empty cur hc (fun x hx => (hcur x hx).1)
      · rw [allWords_append, allWords, pyWords_sjoin cur hc hcur, allWords]
        simpa using hreg
  | cons w ws ih =>
    intro lines cur clen pre hlines hcur hws hcz hreg
    obtain ⟨hw1, hw2⟩ := hws w (List.mem_cons_self w ws)
    have hws2 : ∀ x ∈ ws, x ≠ ("") ∧ ∀ c ∈ x.data, c.isWhitespace = false :=
      fun x hx => hws x (List.mem_cons_of_mem w hx)
    rw [ssLoop]
    by_cases hbig : maxc < w.length
    · rw [if_pos hbig]
      have hwdata : w.data ≠ [] := (str_ne_empty_iff w).mp hw1
      have hpne : chunkStr w maxc ≠ [] := chunkStr_ne_nil w maxc hwdata
      have hprops : ∀ p ∈ chunkStr w maxc, p ≠ ("") ∧ ∀ c ∈ p.data, c.isWhitespace = false :=
        chunkStr_props w maxc hmax hw2
      have hcat : catStrs (chunkStr w maxc) = w := chunkStr_cat w maxc hmax
      have hsplit : (chunkStr w maxc).dropLast ++ [(chunkStr w maxc).getLastD ("")] =
          chunkStr w maxc := dropLast_append_getLastD _ _ hpne
      have hlastmem : (chunkStr w maxc).getLastD ("") ∈ chunkStr w maxc :=
        getLastD_mem _ _ hpne
      have hlines1ne : ∀ l ∈ (if cur = [] then lines else lines ++ [sjoin cur]), l ≠ ("") := by
        by_cases hc : cur = []
        · rw [if_pos hc]
          exact hlines
        · rw [if_neg hc]
          intro l hl
          rcases List.mem_append.mp hl with h1 | h1
          · exact hlines l h1
          · simp at h1
            subst h1
            exact sjoin_ne_empty cur hc (fun x hx => (hcur x hx).1)
      have hreg1 : Regroups (allWords (if cur = [] then lines else lines ++ [sjoin cur])) pre := by
        by_cases hc : cur = []
        · rw [if_pos hc]
          subst hc
          simpa using hreg
        · rw [if_neg hc]
          rw [allWords_append, allWords, pyWords_sjoin cur hc hcur, allWords]
          simpa using hreg
      have hdropprops : ∀ p ∈ (chunkStr w maxc).dropLast,
          p ≠ ("") ∧ ∀ c ∈ p.data, c.isWhitespace = false :=
        fun p hp => hprops p (List.dropLast_subset _ hp)
      have hlines2ne : ∀ l ∈ (if cur = [] then lines else lines ++ [sjoin cur]) ++
          (chunkStr w maxc).dropLast, l ≠ ("") := by
        intro l hl
        rcases List.mem_append.mp hl with h1 | h1
        · exact hlines1ne l h1
        · exact (hdropprops l h1).1
      have hregnew : Regroups
          (allWords ((if cur = [] then lines else lines ++ [sjoin cur]) ++
            (chunkStr w maxc).dropLast) ++ [(chunkStr w maxc).getLastD ("")]) (pre ++ [w]) := by
        rw [allWords_append,
          allWords_of_single _ (fun p hp => pyWords_single p (hdropprops p hp).1 (hdropprops p hp).2),
          List.append_assoc, hsplit]
        exact regroups_append_group hreg1 (chunkStr w maxc) w hpne hcat
      have hres := ih ((if cur = [] then lines else lines ++ [sjoin cur]) ++
          (chunkStr w maxc).dropLast)
        [(chunkStr w maxc).getLastD ("")] ((chunkStr w maxc).getLastD ("")).length (pre ++ [w])
        hlines2ne
        (fun p hp => by
          rw [List.mem_singleton] at hp
          subst hp
          exact hprops _ hlastmem)
        hws2
        (by simp)
        hregnew
      rw [← List.append_cons] at hres
      exact hres
    · rw [if_neg hbig]
      by_cases hover : maxc < clen + w.length + (if cur = [] then 0 else 1)
      · rw [if_pos hover]
        have hcne : cur ≠ [] := by
          intro hc
          rw [if_pos hc, hcz hc] at hover
          simp at hover
          exact hbig hover
        have hregnew : Regroups (allWords (lines ++ [sjoin cur]) ++ [w]) (pre ++ [w]) := by
          rw [allWords_append, allWords, pyWords_sjoin cur hcne hcur, allWords]
          have h2 : Regroups ((allWords lines ++ cur) ++ [w]) (pre ++ [w]) :=
            regroups_append_single hreg w
          simpa using h2
        have hlinesne2 : ∀ l ∈ lines ++ [sjoin cur], l ≠ ("") := by
          intro l hl
          rcases List.mem_append.mp hl with h1 | h1
          · exact hlines l h1
          · simp at h1
            subst h1
            exact sjoin_ne_empty cur hcne (fun x hx => (hcur x hx).1)
        have hres := ih (lines ++ [sjoin cur]) [w] w.length (pre ++ [w])
          hlinesne2
          (fun p hp => by
            rw [List.mem_singleton] at hp
            subst hp
            exact ⟨hw1, hw2⟩)
          hws2
          (by simp)
          hregnew
        rw [← List.append_cons] at hres
        exact hres
      · rw [if_neg hover]
        have hcurnew : ∀ p ∈ cur ++ [w], p ≠ ("") ∧ ∀ c ∈ p.data, c.isWhitespace = false := by
          intro p hp
          rcases List.mem_append.mp hp with h1 | h1
          · exact hcur p h1
          · simp at h1
            subst h1
            exact ⟨hw1, hw2⟩
        have hregnew : Regroups (allWords lines ++ (cur ++ [w])) (pre ++ [w]) := by
          rw [← List.append_assoc]
          exact regroups_append_single hreg w
        have hres := ih lines (cur ++ [w]) (clen + w.length) (pre ++ [w])
          hlines hcurnew hws2 (by simp) hregnew
        rw [← List.append_cons] at hres
        exact hres

/-- Claim C7 counterexample: for empty (or whitespace-only) input the
wrapper returns `[""]` — a list containing an empty line — contradicting
"no line is ever empty … including for empty or whitespace-only input". -/
theorem C7_counterexample :
    smart_split ("") 1 = [("")] ∧ ("" : String) ∈ smart_split ("") 1 := by
  constructor
  · decide
  · decide

/-- Claim C7 (amended): for input whose *stripped* text is nonempty (and
`maxChars ≥ 1`), `smart_split` returns a nonempty list of nonempty lines
whose word sequence — re-joining the slices of chunked over-long words,
expressed by the `Regroups` relation — is exactly the input's word
sequence: no word is dropped or reordered.  (For empty or
whitespace-only input the result is the single empty line `[""]`; see
the counterexample.) -/
theorem C7_no_empty_line_no_word_dropped (text : String) (maxc : ℕ) (hmax : 1 ≤ maxc)
    (hne : pyStrip text ≠ ("")) :
    smart_split text maxc ≠ [] ∧
    (∀ l ∈ smart_split text maxc, l ≠ ("")) ∧
    Regroups (allWords (smart_split text maxc)) (pyWords text) := by
  rw [smart_split]
  by_cases hl : (pyStrip text).length ≤ maxc
  · rw [if_pos hl]
    refine ⟨by simp, ?_, ?_⟩
    · intro l hl2
      simp at hl2
      subst hl2
      exact hne
    · rw [allWords, allWords, List.append_nil, pyWords_strip]
      exact regroups_refl _
  · rw [if_neg hl]
    have hwords := pyWordsAux_mem_all (pyStrip text).data [] (by simp)
    have hres := ssLoop_spec maxc hmax (pyWords (pyStrip text)) [] [] 0 []
      (by simp) (by simp) (fun w hw => hwords w hw) (fun _ => rfl)
      (by rw [allWords, List.nil_append]; exact Regroups.nil)
    refine ⟨?_, hres.1, ?_⟩
    · intro hcontr
      have hne2 : pyWords (pyStrip text) ≠ [] := by
        rw [pyWords_strip]
        exact pyWords_ne_nil_of_strip text hne
      have h2 := hres.2
      rw [hcontr, List.nil_append] at h2
      rcases hcase : pyWords (pyStrip text) with _ | ⟨x, xs⟩
      · exact hne2 hcase
      · rw [hcase] at h2
        exact regroups_out_ne_nil h2 rfl
    · nth_rewrite 2 [← pyWords_strip]
      simpa using hres.2

theorem C7_no_empty_line_no_word_dropped_witness :
    1 ≤ 5 ∧ pyStrip ("hello world") ≠ ("") ∧
    smart_split ("hello world") 5 ≠ [] ∧
    Regroups (allWords (smart_split ("hello world") 5)) (pyWords ("hello world")) :=
  ⟨by norm_num, by decide,
    (C7_no_empty_line_no_word_dropped ("hello world") 5 (by norm_num) (by decide)).1,
    (C7_no_empty_line_no_word_dropped ("hello world") 5 (by norm_num) (by decide)).2.2⟩
